import Mathlib

/-!
# Verification of the Keepa time-series history decoder

Shallow embedding of the decoding core of `src/App.tsx` (the `handleSubmit`
extraction logic plus the ASIN helpers), together with proofs of the spec's
claims about it.

Modelling conventions:
* A raw Keepa history array (`product.csv[i]`) is a `List Int`; a possibly
  missing array (`product.csv?.[i]` being `undefined`) is an `Option (List Int)`.
* A JS array read `a[i]` that may be out of range is `List.get? a i`
  (out-of-range yields `none`, the analogue of `undefined`).
* JS `Date` millisecond instants and Keepa minute timestamps are `Int`.
* Decoded (divided-by-100) prices are `ℚ`.
* JS `Math.floor` division is `Int.fdiv`.
-/

/-- The sentinel filter used by every metric extraction, as written in the
source: `x !== -1 && x != null && x > 0`.  `none` models JS `null`/`undefined`
(the loose `x != null` test rejects both). -/
def isValid : Option Int → Bool
  | none => false
  | some x => x != -1 && x > 0

/-- The series walker: read an interleaved `[timestamp, value, timestamp,
value, ...]` array two entries at a time, dropping a trailing unpaired
element. -/
def pairs : List Int → List (Int × Int)
  | t :: v :: rest => (t, v) :: pairs rest
  | _ => []

/-- The reverse sales-rank scan of `handleSubmit`:
`for (let i = salesRankHistory.length - 1; i >= 1; i -= 2)`, returning the
first entry `s[i]` passing the sentinel filter.  The argument is the current
loop index `i`; the loop body runs while `i >= 1`. -/
def rankScan (s : List Int) : Nat → Option Int
  | 0 => none
  | 1 => if isValid s[1]? then s[1]? else none
  | (i + 2) => if isValid s[i + 2]? then s[i + 2]? else rankScan s i

/-- The most recent valid sales rank of one history array: the reverse scan
started at the last index. -/
def latestValidRank (s : List Int) : Option Int :=
  rankScan s (s.length - 1)

/-- The outer sales-rank candidate loop of `handleSubmit`: try each history in
order (skipping absent or empty arrays), stop at the first that yields a rank
(`if (currentSalesRank) break`). -/
def resolveRank : List (Option (List Int)) → Option Int
  | [] => none
  | h :: t =>
    match h with
    | some s =>
      if s.length > 0 then
        match latestValidRank s with
        | some r => some r
        | none => resolveRank t
      else resolveRank t
    | none => resolveRank t

/-- One step of the lowest-price tracking of `handleSubmit`: given the current
`(lowestPrice, lowestPriceTimestamp)` accumulator (`none` models the
`Infinity` initial state) and the pair read at the current index, update the
accumulator.  `price < lowestPrice` is strict, so ties keep the earlier
occurrence. -/
def minStep (best : Option (Int × Int)) (timestamp : Int) (price : Option Int) :
    Option (Int × Int) :=
  if isValid price then
    match price, best with
    | some p, none => some (p, timestamp)
    | some p, some (bp, bt) => if p < bp then some (p, timestamp) else some (bp, bt)
    | none, b => b
  else best

/-- The forward lowest-price loop of `handleSubmit`:
`for (let i = 0; i < priceHistory.data.length; i += 2)` reading
`timestamp = data[i]`, `price = data[i + 1]`.  On a trailing unpaired element
the price read is out of range (`undefined` in JS), which the sentinel filter
rejects. -/
def minLoop : List Int → Option (Int × Int) → Option (Int × Int)
  | [], best => best
  | [t], best => minStep best t none
  | t :: v :: rest, best => minLoop rest (minStep best t (some v))

/-- The same fold expressed over the walked pairs (helper for reasoning). -/
def minFold : List (Int × Int) → Option (Int × Int) → Option (Int × Int)
  | [], best => best
  | (t, v) :: rest, best => minFold rest (minStep best t (some v))

/-- A named price-history candidate, as in the `priceHistories` array literal
of `handleSubmit` (`{ data: product.csv?.[1], type: 'Amazon' }`, ...). -/
structure PriceCandidate where
  data : Option (List Int)
  type : String
deriving DecidableEq

/-- The lowest-price candidate loop of `handleSubmit`: run the forward minimum
loop on each candidate in order (skipping absent or empty arrays); on the
first candidate whose minimum is not `Infinity`, return the price, its
timestamp and the candidate's `type` tag, then `break`. -/
def resolveLowest : List PriceCandidate → Option (Int × Int × String)
  | [] => none
  | c :: t =>
    match c.data with
    | some s =>
      if s.length > 0 then
        match minLoop s none with
        | some (p, ts) => some (p, ts, c.type)
        | none => resolveLowest t
      else resolveLowest t
    | none => resolveLowest t

/-- The current-price candidate loop of `handleSubmit`: for each candidate
array with `length >= 2`, read only the final element
`priceData[priceData.length - 1]`; if it passes the sentinel filter it is the
current price (in cents), otherwise move to the next candidate. -/
def currentPriceScan : List (Option (List Int)) → Option Int
  | [] => none
  | h :: t =>
    match h with
    | some s =>
      if s.length ≥ 2 then
        match s[s.length - 1]? with
        | some lastPrice =>
          if isValid (some lastPrice) then some lastPrice else currentPriceScan t
        | none => currentPriceScan t
      else currentPriceScan t
    | none => currentPriceScan t

/-- `new Date('2011-01-01T00:00:00.000Z').getTime()` — the Keepa epoch as a
millisecond instant. -/
def keepaEpochStart : Int := 1293840000000

/-- The timestamp codec of `handleSubmit`:
`new Date(keepaEpochStart + (t * 60000))`. -/
def decodeTimestamp (raw : Int) : Int :=
  keepaEpochStart + raw * 60000

/-- `Math.floor((Date.now() - (30 * 24 * 60 * 60 * 1000)) / 60000)` — the
window start sent to the API as the `since` query parameter. -/
def thirtyDaysAgo (now : Int) : Int :=
  Int.fdiv (now - 30 * 24 * 60 * 60 * 1000) 60000

/-- The named series slots of one product payload: `product.csv[1]` (Amazon
price), `csv[2]` (New price), `csv[3]` (main-category sales rank), `csv[4]`
(subcategory sales rank), `csv[18]` (Buy Box price).  Each may be absent. -/
structure SeriesCatalog where
  csv1 : Option (List Int)
  csv2 : Option (List Int)
  csv3 : Option (List Int)
  csv4 : Option (List Int)
  csv18 : Option (List Int)

/-- The metric fields of the `setResult` call (presentational metadata such as
title and category pass through unchanged and are not modelled).  The date
field holds the millisecond instant before locale formatting. -/
structure DecodedReport where
  salesRank : Option Int
  price : Option ℚ
  lowestBuyboxPrice30Days : Option ℚ
  lowestBuyboxPriceDate : Option Int
  priceSource : Option String

/-- The decode orchestrator: the body of `handleSubmit` between reading
`product` and calling `setResult`, composed of the three extraction loops with
their hard-coded candidate orders. -/
def decodeReport (c : SeriesCatalog) : DecodedReport :=
  let rank := resolveRank [c.csv3, c.csv4]
  let low := resolveLowest
    [⟨c.csv1, "Amazon"⟩, ⟨c.csv18, "Buy Box"⟩, ⟨c.csv2, "New"⟩]
  let cur := currentPriceScan [c.csv1, c.csv18, c.csv2]
  { salesRank := rank
    price := cur.map (fun v : Int => (v : ℚ) / 100)
    lowestBuyboxPrice30Days := low.map (fun x : Int × Int × String => (x.1 : ℚ) / 100)
    lowestBuyboxPriceDate := low.map (fun x => decodeTimestamp x.2.1)
    priceSource := low.map (fun x => x.2.2) }

/-- Modelled from the spec: the day number (relative to 1970-01-01) of a
proleptic-Gregorian calendar date, the standard civil-from-days arithmetic.
Used to check that the code's epoch constant really is the calendar instant
2011-01-01T00:00:00.000Z named by the spec. -/
def civilDaysFromEpoch (y m d : Int) : Int :=
  let yAdj := if m ≤ 2 then y - 1 else y
  let era := Int.fdiv yAdj 400
  let yoe := yAdj - era * 400
  let mp := if m > 2 then m - 3 else m + 9
  let doy := Int.fdiv (153 * mp + 2) 5 + d - 1
  let doe := yoe * 365 + Int.fdiv yoe 4 - Int.fdiv yoe 100 + doy
  era * 146097 + doe - 719468

/-- A character kept by the ASIN regex character class `[A-Z0-9]` (code points
65–90 and 48–57). -/
def isAsinChar (c : Char) : Bool :=
  (65 ≤ c.toNat && c.toNat ≤ 90) || (48 ≤ c.toNat && c.toNat ≤ 57)

/-- `formatASIN`: `input.toUpperCase().replace(/[^A-Z0-9]/g, '')`, modelled
character-wise (ASCII case mapping; multi-character Unicode upcasings do not
affect the stated properties since the filter keeps only `[A-Z0-9]`). -/
def formatASIN (s : List Char) : List Char :=
  (s.map Char.toUpper).filter isAsinChar

/-- `validateASIN`: `/^[A-Z0-9]{10}$/.test(asin.toUpperCase())`. -/
def validateASIN (s : List Char) : Bool :=
  (s.map Char.toUpper).length == 10 && (s.map Char.toUpper).all isAsinChar

/-- C1: the sentinel filter accepts exactly the present strictly positive
values — it rejects `null`/`undefined` (`none`), `-1`, and every value `≤ 0`,
and accepts every strictly positive value.  It is a total Lean function, hence
pure and non-raising on every input. -/
theorem sentinel_filter_accepts_exactly_positive (v : Option Int) :
    isValid v = true ↔ ∃ x : Int, v = some x ∧ 0 < x := by
  cases v with
  | none => simp [isValid]
  | some x =>
    simp only [isValid, Bool.and_eq_true, bne_iff_ne, ne_eq, decide_eq_true_eq]
    constructor
    · rintro ⟨-, hpos⟩
      exact ⟨x, rfl, hpos⟩
    · rintro ⟨y, hy, hpos⟩
      cases hy
      exact ⟨by omega, hpos⟩

/-! ## Helper lemmas about the series walker and the minimum fold -/

theorem pairs_length : ∀ s : List Int, (pairs s).length = s.length / 2
  | [] => rfl
  | [_] => by norm_num [pairs]
  | t :: v :: rest => by
      simp only [pairs, List.length_cons, pairs_length rest]
      omega

theorem pairs_dropLast_of_odd : ∀ s : List Int, Odd s.length → pairs s = pairs s.dropLast
  | [], h => by simp at h
  | [_], _ => rfl
  | [_, _], h => by simp [Nat.odd_iff] at h
  | t :: v :: r :: rs, h => by
      have h' : Odd (r :: rs).length := by
        rcases h with ⟨k, hk⟩
        simp only [List.length_cons] at hk ⊢
        exact ⟨k - 1, by omega⟩
      simp only [pairs, List.dropLast, List.cons.injEq, true_and]
      exact pairs_dropLast_of_odd (r :: rs) h'

theorem pairs_append_even : ∀ s u : List Int, Even s.length → pairs (s ++ u) = pairs s ++ pairs u
  | [], _, _ => by simp [pairs]
  | [_], _, h => by simp [Nat.even_iff] at h
  | t :: v :: rest, u, h => by
      have h' : Even rest.length := by
        rcases h with ⟨k, hk⟩
        simp only [List.length_cons] at hk
        exact ⟨k - 1, by omega⟩
      simp only [List.cons_append, pairs, List.cons.injEq, true_and]
      exact pairs_append_even rest u h'

theorem minLoop_eq_minFold : ∀ (s : List Int) (best : Option (Int × Int)),
    minLoop s best = minFold (pairs s) best
  | [], _ => rfl
  | [t], best => by simp [minLoop, pairs, minFold, minStep, isValid]
  | t :: v :: rest, best => by
      simp only [minLoop, pairs, minFold]
      exact minLoop_eq_minFold rest _

theorem minStep_eq_none_iff (b : Option (Int × Int)) (t : Int) (p : Option Int) :
    minStep b t p = none ↔ b = none ∧ isValid p = false := by
  cases hv : isValid p with
  | false => simp [minStep, hv]
  | true =>
    cases p with
    | none => simp [isValid] at hv
    | some x =>
      cases b with
      | none => simp [minStep, hv]
      | some bb => obtain ⟨bp, bt⟩ := bb; simp [minStep, hv]; split <;> simp

theorem minFold_eq_none_iff : ∀ (l : List (Int × Int)) (b : Option (Int × Int)),
    minFold l b = none ↔ b = none ∧ ∀ p ∈ l, isValid (some p.2) = false
  | [], b => by simp [minFold]
  | (t0, v0) :: rest, b => by
      simp only [minFold]
      rw [minFold_eq_none_iff rest, minStep_eq_none_iff]
      constructor
      · rintro ⟨⟨hb, hv0⟩, hrest⟩
        refine ⟨hb, ?_⟩
        intro p hp
        rcases List.mem_cons.mp hp with rfl | hp'
        · exact hv0
        · exact hrest p hp'
      · rintro ⟨hb, hall⟩
        exact ⟨⟨hb, hall (t0, v0) (List.mem_cons_self _ _)⟩,
          fun p hp => hall p (List.mem_cons_of_mem _ hp)⟩

theorem minFold_spec : ∀ (l : List (Int × Int)) (b : Option (Int × Int)) (v t : Int),
    minFold l b = some (v, t) →
    (b = some (v, t) ∧ ∀ p ∈ l, isValid (some p.2) = true → v ≤ p.2) ∨
    (∃ l1 l2, l = l1 ++ (t, v) :: l2 ∧ isValid (some v) = true ∧
      (∀ p ∈ l1, isValid (some p.2) = true → v < p.2) ∧
      (∀ bv bt : Int, b = some (bv, bt) → v < bv) ∧
      (∀ p ∈ l2, isValid (some p.2) = true → v ≤ p.2)) := by
  intro l
  induction l with
  | nil =>
    intro b v t h
    left
    exact ⟨h, by simp⟩
  | cons hd rest ih =>
    obtain ⟨t0, v0⟩ := hd
    intro b v t h
    simp only [minFold] at h
    cases hval : isValid (some v0) with
    | false =>
      rw [show minStep b t0 (some v0) = b by simp [minStep, hval]] at h
      rcases ih b v t h with ⟨hb, hall⟩ | ⟨l1, l2, hl, hv, h1, hbc, h2⟩
      · left
        refine ⟨hb, ?_⟩
        intro p hp hvp
        rcases List.mem_cons.mp hp with rfl | hp'
        · simp [hval] at hvp
        · exact hall p hp' hvp
      · right
        refine ⟨(t0, v0) :: l1, l2, by rw [hl, List.cons_append], hv, ?_, hbc, h2⟩
        intro p hp hvp
        rcases List.mem_cons.mp hp with rfl | hp'
        · simp [hval] at hvp
        · exact h1 p hp' hvp
    | true =>
      cases b with
      | none =>
        rw [show minStep none t0 (some v0) = some (v0, t0) by simp [minStep, hval]] at h
        rcases ih _ v t h with ⟨hb, hall⟩ | ⟨l1, l2, hl, hv, h1, hbc, h2⟩
        · obtain ⟨rfl, rfl⟩ : v0 = v ∧ t0 = t := by
            refine ⟨?_, ?_⟩ <;> injection hb with hb' <;> cases hb' <;> rfl
          right
          exact ⟨[], rest, rfl, hval, by simp, by simp, hall⟩
        · have hlt : v < v0 := hbc v0 t0 rfl
          right
          refine ⟨(t0, v0) :: l1, l2, by rw [hl, List.cons_append], hv, ?_, by simp, h2⟩
          intro p hp hvp
          rcases List.mem_cons.mp hp with rfl | hp'
          · exact hlt
          · exact h1 p hp' hvp
      | some bb =>
        obtain ⟨bv, bt⟩ := bb
        by_cases hcmp : v0 < bv
        · rw [show minStep (some (bv, bt)) t0 (some v0) = some (v0, t0) by
            simp [minStep, hval, hcmp]] at h
          rcases ih _ v t h with ⟨hb, hall⟩ | ⟨l1, l2, hl, hv, h1, hbc, h2⟩
          · obtain ⟨rfl, rfl⟩ : v0 = v ∧ t0 = t := by
              refine ⟨?_, ?_⟩ <;> injection hb with hb' <;> cases hb' <;> rfl
            right
            refine ⟨[], rest, rfl, hval, by simp, ?_, hall⟩
            intro bv' bt' heq
            injection heq with heq'
            cases heq'
            exact hcmp
          · have hlt : v < v0 := hbc v0 t0 rfl
            right
            refine ⟨(t0, v0) :: l1, l2, by rw [hl, List.cons_append], hv, ?_, ?_, h2⟩
            · intro p hp hvp
              rcases List.mem_cons.mp hp with rfl | hp'
              · exact hlt
              · exact h1 p hp' hvp
            · intro bv' bt' heq
              injection heq with heq'
              cases heq'
              omega
        · rw [show minStep (some (bv, bt)) t0 (some v0) = some (bv, bt) by
            simp [minStep, hval, hcmp]] at h
          rcases ih _ v t h with ⟨hb, hall⟩ | ⟨l1, l2, hl, hv, h1, hbc, h2⟩
          · obtain ⟨rfl, rfl⟩ : bv = v ∧ bt = t := by
              refine ⟨?_, ?_⟩ <;> injection hb with hb' <;> cases hb' <;> rfl
            left
            refine ⟨rfl, ?_⟩
            intro p hp hvp
            rcases List.mem_cons.mp hp with rfl | hp'
            · omega
            · exact hall p hp' hvp
          · have hlt : v < bv := hbc bv bt rfl
            right
            refine ⟨(t0, v0) :: l1, l2, by rw [hl, List.cons_append], hv, ?_, ?_, h2⟩
            · intro p hp hvp
              rcases List.mem_cons.mp hp with rfl | hp'
              · omega
              · exact h1 p hp' hvp
            · intro bv' bt' heq
              injection heq with heq'
              cases heq'
              exact hlt

theorem minFold_none_spec (l : List (Int × Int)) (v t : Int)
    (h : minFold l none = some (v, t)) :
    isValid (some v) = true ∧
    ∃ l1 l2, l = l1 ++ (t, v) :: l2 ∧
      (∀ p ∈ l1, isValid (some p.2) = true → v < p.2) ∧
      (∀ p ∈ l2, isValid (some p.2) = true → v ≤ p.2) := by
  rcases minFold_spec l none v t h with ⟨hb, -⟩ | ⟨l1, l2, hl, hv, h1, -, h2⟩
  · cases hb
  · exact ⟨hv, l1, l2, hl, h1, h2⟩

theorem rankScan_append : ∀ (s u : List Int) (i : Nat), i < s.length →
    rankScan (s ++ u) i = rankScan s i
  | s, u, 0, _ => rfl
  | s, u, 1, h => by
      simp only [rankScan, List.getElem?_append_left h]
  | s, u, (i + 2), h => by
      simp only [rankScan, List.getElem?_append_left h,
        rankScan_append s u i (by omega)]

theorem rankScan_snoc2 (s : List Int) (a b : Int) :
    rankScan (s ++ [a, b]) (s.length + 1) =
      if isValid (some b) then some b else latestValidRank s := by
  have hget : (s ++ [a, b])[s.length + 1]? = some b := by
    rw [List.getElem?_append_right (by omega)]
    simp
  cases hn : s.length with
  | zero =>
    have hs : s = [] := List.length_eq_zero.mp hn
    subst hs
    simp only [List.nil_append] at hget ⊢
    simp only [rankScan, latestValidRank, List.length_nil, rankScan, hget]
    rfl
  | succ m =>
    show rankScan (s ++ [a, b]) (m + 2) =
      if isValid (some b) = true then some b else latestValidRank s
    simp only [rankScan]
    rw [show (s ++ [a, b])[m + 2]? = some b by rw [← hget]; congr 1; omega]
    rw [rankScan_append s [a, b] m (by omega)]
    unfold latestValidRank
    rw [hn, Nat.add_sub_cancel]

theorem latestValidRank_even_aux : ∀ (n : Nat) (s : List Int), s.length = n → Even n →
    latestValidRank s =
      ((pairs s).reverse.find? (fun p => isValid (some p.2))).map Prod.snd := by
  intro n
  induction n using Nat.strong_induction_on with
  | _ n ih =>
    intro s hlen hev
    rcases Nat.eq_zero_or_pos n with rfl | hpos
    · have hs : s = [] := List.length_eq_zero.mp hlen
      subst hs
      rfl
    · have h2 : 2 ≤ s.length := by
        rcases hev with ⟨r, hr⟩
        omega
      obtain ⟨a, b, hab⟩ := List.length_eq_two.mp
        (show (s.drop (s.length - 2)).length = 2 by simp; omega)
      have hsplit : s = s.take (s.length - 2) ++ [a, b] := by
        rw [← hab, List.take_append_drop]
      have hlen' : (s.take (s.length - 2)).length = s.length - 2 := by
        simp
      have hev' : Even (s.take (s.length - 2)).length := by
        rcases hev with ⟨r, hr⟩
        rw [hlen']
        exact ⟨r - 1, by omega⟩
      have hL : latestValidRank s =
          rankScan (s.take (s.length - 2) ++ [a, b]) ((s.take (s.length - 2)).length + 1) := by
        unfold latestValidRank
        rw [← hsplit, hlen']
        congr 1
        omega
      rw [hL, rankScan_snoc2]
      have hpairs : pairs s = pairs (s.take (s.length - 2)) ++ [(a, b)] := by
        conv_lhs => rw [hsplit]
        rw [pairs_append_even _ _ hev']
        rfl
      rw [hpairs, List.reverse_append]
      simp only [List.reverse_cons, List.reverse_nil, List.nil_append, List.cons_append,
        List.find?_cons]
      cases hvb : isValid (some b) with
      | true => simp
      | false =>
        simp only [if_neg (by simp [hvb] : ¬ isValid (some b) = true)]
        exact ih (n - 2) (by omega) _ (by omega) (by rcases hev with ⟨r, hr⟩; exact ⟨r - 1, by omega⟩)

theorem latestValidRank_even_eq (s : List Int) (h : Even s.length) :
    latestValidRank s =
      ((pairs s).reverse.find? (fun p => isValid (some p.2))).map Prod.snd :=
  latestValidRank_even_aux s.length s rfl h

theorem currentPriceScan_sound : ∀ (L : List (Option (List Int))) (v : Int),
    currentPriceScan L = some v →
    isValid (some v) = true ∧
    ∃ sl, some sl ∈ L ∧ 2 ≤ sl.length ∧ sl[sl.length - 1]? = some v := by
  intro L
  induction L with
  | nil => intro v h; cases h
  | cons hd tl ih =>
    intro v h
    cases hd with
    | none =>
      obtain ⟨hv, sl, hmem, hlen, hlast⟩ := ih v (by simpa [currentPriceScan] using h)
      exact ⟨hv, sl, List.mem_cons_of_mem _ hmem, hlen, hlast⟩
    | some s =>
      simp only [currentPriceScan] at h
      by_cases hlen : s.length ≥ 2
      · rw [if_pos hlen] at h
        cases hget : s[s.length - 1]? with
        | none =>
          rw [hget] at h
          obtain ⟨hv, sl, hmem, hl, hlast⟩ := ih v h
          exact ⟨hv, sl, List.mem_cons_of_mem _ hmem, hl, hlast⟩
        | some lastPrice =>
          rw [hget] at h
          replace h : (if isValid (some lastPrice) = true then some lastPrice
              else currentPriceScan tl) = some v := h
          cases hval : isValid (some lastPrice) with
          | false =>
            rw [if_neg (by simp [hval])] at h
            obtain ⟨hv, sl, hmem, hl, hlast⟩ := ih v h
            exact ⟨hv, sl, List.mem_cons_of_mem _ hmem, hl, hlast⟩
          | true =>
            rw [if_pos hval] at h
            injection h with h
            subst h
            exact ⟨hval, s, List.mem_cons_self _ _, hlen, hget⟩
      · rw [if_neg hlen] at h
        obtain ⟨hv, sl, hmem, hl, hlast⟩ := ih v h
        exact ⟨hv, sl, List.mem_cons_of_mem _ hmem, hl, hlast⟩

theorem resolveLowest_sound : ∀ (L : List PriceCandidate) (p ts : Int) (ty : String),
    resolveLowest L = some (p, ts, ty) →
    ∃ c ∈ L, c.type = ty ∧ ∃ sl, c.data = some sl ∧ minLoop sl none = some (p, ts) := by
  intro L
  induction L with
  | nil => intro p ts ty h; cases h
  | cons hd tl ih =>
    intro p ts ty h
    cases hd' : hd.data with
    | none =>
      have h' : resolveLowest tl = some (p, ts, ty) := by
        simpa [resolveLowest, hd'] using h
      obtain ⟨c, hmem, hty, sl, hdata, hmin⟩ := ih p ts ty h'
      exact ⟨c, List.mem_cons_of_mem _ hmem, hty, sl, hdata, hmin⟩
    | some s =>
      simp only [resolveLowest, hd'] at h
      by_cases hlen : s.length > 0
      · rw [if_pos hlen] at h
        cases hmin : minLoop s none with
        | none =>
          rw [hmin] at h
          obtain ⟨c, hmem, hty, sl, hdata, hm⟩ := ih p ts ty h
          exact ⟨c, List.mem_cons_of_mem _ hmem, hty, sl, hdata, hm⟩
        | some pr =>
          obtain ⟨p0, ts0⟩ := pr
          rw [hmin] at h
          injection h with h
          obtain ⟨rfl, rfl, rfl⟩ : p0 = p ∧ ts0 = ts ∧ hd.type = ty := by
            refine ⟨?_, ?_, ?_⟩ <;> cases h <;> rfl
          exact ⟨hd, List.mem_cons_self _ _, rfl, s, hd', hmin⟩
      · rw [if_neg hlen] at h
        obtain ⟨c, hmem, hty, sl, hdata, hm⟩ := ih p ts ty h
        exact ⟨c, List.mem_cons_of_mem _ hmem, hty, sl, hdata, hm⟩

theorem toUpper_id_of_asin (c : Char) (h : isAsinChar c = true) : c.toUpper = c := by
  simp only [isAsinChar, Bool.or_eq_true, Bool.and_eq_true, decide_eq_true_eq] at h
  unfold Char.toUpper
  rw [if_neg]
  omega

/-! ## Claim theorems -/

/-- C2 counterexample: on the series [100, 50, 200, -1] the pair (100, 50)
passes the sentinel filter, yet the current-price extraction returns absent —
it does not walk the series in reverse, contradicting the claim that the
latest-valid extraction used for current price returns absent only when no
pair in the series validates. -/
theorem c2_counterexample :
    currentPriceScan [some [100, 50, 200, -1]] = none ∧
    (100, (50 : Int)) ∈ pairs [100, 50, 200, -1] ∧
    isValid (some 50) = true := by decide

/-- C2 (amended): the sales-rank extraction walks the interleaved pairs in
reverse chronological order and returns the value of the first pair whose
value passes the sentinel filter (stated for even-length, i.e. well-formed,
series), absent only if no pair validates; the current-price extraction
instead examines only the final array element of each candidate — if that
single element is invalid the candidate yields absent even when earlier pairs
validate.  On [100, -1, 200, 50] both return value 50. -/
theorem c2_latest_valid_extraction :
    (∀ s : List Int, Even s.length →
      latestValidRank s =
        ((pairs s).reverse.find? (fun p => isValid (some p.2))).map Prod.snd) ∧
    (∀ (s : List Int) (rest : List (Option (List Int))), 2 ≤ s.length →
      currentPriceScan (some s :: rest) =
        if isValid s[s.length - 1]? then s[s.length - 1]? else currentPriceScan rest) ∧
    latestValidRank [100, -1, 200, 50] = some 50 ∧
    currentPriceScan [some [100, -1, 200, 50]] = some 50 := by
  refine ⟨latestValidRank_even_eq, ?_, by decide, by decide⟩
  intro s rest hlen
  cases hget : s[s.length - 1]? with
  | none =>
    exfalso
    rw [List.getElem?_eq_none_iff] at hget
    omega
  | some lastPrice =>
    simp only [currentPriceScan, if_pos (by omega : s.length ≥ 2), hget]

theorem c2_witness :
    (Even ([100, -1, 200, 50] : List Int).length ∧
      latestValidRank [100, -1, 200, 50] =
        ((pairs [100, -1, 200, 50]).reverse.find?
          (fun p => isValid (some p.2))).map Prod.snd) ∧
    (2 ≤ ([7, 5, 9, 42] : List Int).length ∧
      currentPriceScan [some [7, 5, 9, 42]] =
        if isValid ([7, 5, 9, 42] : List Int)[([7, 5, 9, 42] : List Int).length - 1]?
        then ([7, 5, 9, 42] : List Int)[([7, 5, 9, 42] : List Int).length - 1]?
        else currentPriceScan []) :=
  ⟨⟨by decide, c2_latest_valid_extraction.1 _ (by decide)⟩,
   ⟨by decide, c2_latest_valid_extraction.2.1 [7, 5, 9, 42] [] (by decide)⟩⟩

/-- C3: the windowed-minimum extraction considers every walked pair of the
series (so no early exit is possible), returns the smallest sentinel-valid
value with that value's timestamp, breaks ties by keeping the earliest
occurrence (every strictly earlier valid pair has a strictly larger value,
every later valid pair a larger-or-equal one), is absent exactly when no pair
validates, and on [10, 500, 20, 300, 30, 700] returns value 300 at
timestamp 20. -/
theorem c3_windowed_minimum (s : List Int) :
    (minLoop s none = none ↔ ∀ p ∈ pairs s, isValid (some p.2) = false) ∧
    (∀ v t : Int, minLoop s none = some (v, t) →
      isValid (some v) = true ∧
      ∃ l1 l2, pairs s = l1 ++ (t, v) :: l2 ∧
        (∀ p ∈ l1, isValid (some p.2) = true → v < p.2) ∧
        (∀ p ∈ l2, isValid (some p.2) = true → v ≤ p.2)) ∧
    minLoop [10, 500, 20, 300, 30, 700] none = some (300, 20) := by
  refine ⟨?_, ?_, by decide⟩
  · rw [minLoop_eq_minFold, minFold_eq_none_iff]
    simp
  · intro v t h
    rw [minLoop_eq_minFold] at h
    exact minFold_none_spec _ _ _ h

theorem c3_witness :
    isValid (some (300 : Int)) = true ∧
    ∃ l1 l2, pairs [10, 500, 20, 300, 30, 700] = l1 ++ ((20 : Int), (300 : Int)) :: l2 ∧
      (∀ p ∈ l1, isValid (some p.2) = true → (300 : Int) < p.2) ∧
      (∀ p ∈ l2, isValid (some p.2) = true → (300 : Int) ≤ p.2) :=
  (c3_windowed_minimum [10, 500, 20, 300, 30, 700]).2.1 300 20 (by decide)

/-- C4 counterexample: with now = 2652000000 the computed window start is
1000, yet the lowest-price resolution returns the entry at timestamp
500 < 1000 with value 10 — an entry whose timestamp is strictly less than the
window start is not excluded from the minimum search. -/
theorem c4_counterexample :
    thirtyDaysAgo 2652000000 = 1000 ∧
    resolveLowest [⟨some [500, 10, 2000, 999], "Amazon"⟩] = some (10, 500, "Amazon") ∧
    ((500 : Int) < 1000) := by decide

/-- C4 (amended): the orchestrator computes the 30-day window start before the
fetch, but only as the request's `since` parameter; the minimum search itself
applies no timestamp filter, so every sentinel-valid pair of the supplied
series — in particular every pair with timestamp strictly below any window
start — still bounds the returned minimum. -/
theorem c4_minimum_ignores_window (s : List Int) (windowStart v t : Int)
    (h : minLoop s none = some (v, t)) :
    ∀ p ∈ pairs s, isValid (some p.2) = true → p.1 < windowStart → v ≤ p.2 := by
  intro p hp hval hold
  rw [minLoop_eq_minFold] at h
  obtain ⟨-, l1, l2, hl, h1, h2⟩ := minFold_none_spec _ _ _ h
  rw [hl] at hp
  rcases List.mem_append.mp hp with h1m | h2m
  · exact le_of_lt (h1 p h1m hval)
  · rcases List.mem_cons.mp h2m with rfl | h2m'
    · exact le_rfl
    · exact h2 p h2m' hval

theorem c4_witness : (30 : Int) ≤ 50 :=
  c4_minimum_ignores_window [500, 50, 600, 30] 1000 30 600 (by decide)
    (500, 50) (by decide) (by decide) (by decide)

/-- C6 counterexample: on the odd-length series [100, -1, 200] the walked
pairs are [(100, -1)], whose sole value fails the sentinel filter, so an
extraction that dropped the trailing unpaired element would return absent; the
reverse sales-rank extraction instead returns 200 — the trailing element
itself (a timestamp slot). -/
theorem c6_counterexample :
    pairs [100, -1, 200] = [(100, -1)] ∧
    isValid (some (-1 : Int)) = false ∧
    latestValidRank [100, -1, 200] = some 200 := by decide

/-- C6 (amended): the forward windowed-minimum loop does behave as if the
trailing unpaired element of an odd-length series were absent, and exactly
⌊n/2⌋ pairs are walked; but the reverse latest-valid scan and the
final-element current-price read do not drop it — on odd-length input they
read timestamp slots, as on [100, -1, 200] (reverse scan returns 200, the
trailing timestamp) and [100, 50, 200] (current price reads 200).  No error is
raised in any case. -/
theorem c6_odd_length (s : List Int) (h : Odd s.length) :
    minLoop s none = minLoop s.dropLast none ∧
    (pairs s).length = s.length / 2 ∧
    latestValidRank [100, -1, 200] = some 200 ∧
    currentPriceScan [some [100, 50, 200]] = some 200 := by
  refine ⟨?_, pairs_length s, by decide, by decide⟩
  rw [minLoop_eq_minFold, minLoop_eq_minFold, ← pairs_dropLast_of_odd s h]

theorem c6_witness :
    Odd ([100, -1, 200] : List Int).length ∧
    minLoop [100, -1, 200] none = minLoop ([100, -1, 200] : List Int).dropLast none :=
  ⟨by decide, (c6_odd_length [100, -1, 200] (by decide)).1⟩

/-- C5: each candidate loop resolves by first-success-wins — a candidate whose
extraction is absent is skipped, the first candidate whose extraction succeeds
determines the result (tagged with that candidate's `type` name for the
lowest-price metric), later candidates are never consulted or compared; with
[A all-invalid, B valid] the result is tagged "B", with [A valid, B valid] it
is tagged "A"; and the orchestrator's candidate orders are main- then
sub-category rank, and Amazon, Buy Box, New for both price metrics. -/
theorem c5_priority_resolver :
    (∀ (c : PriceCandidate) (rest : List PriceCandidate),
      (∀ sl, c.data = some sl → minLoop sl none = none) →
      resolveLowest (c :: rest) = resolveLowest rest) ∧
    (∀ (c : PriceCandidate) (rest : List PriceCandidate) (sl : List Int) (p ts : Int),
      c.data = some sl → minLoop sl none = some (p, ts) →
      resolveLowest (c :: rest) = some (p, ts, c.type)) ∧
    (∀ (hd : Option (List Int)) (rest : List (Option (List Int))),
      (∀ sl, hd = some sl → latestValidRank sl = none) →
      resolveRank (hd :: rest) = resolveRank rest) ∧
    (∀ (hd : Option (List Int)) (rest : List (Option (List Int))) (sl : List Int) (r : Int),
      hd = some sl → latestValidRank sl = some r →
      resolveRank (hd :: rest) = some r) ∧
    resolveLowest [⟨some [5, -1], "A"⟩, ⟨some [7, 30], "B"⟩] = some (30, 7, "B") ∧
    resolveLowest [⟨some [5, 10], "A"⟩, ⟨some [7, 30], "B"⟩] = some (10, 5, "A") ∧
    (∀ cat : SeriesCatalog,
      (decodeReport cat).salesRank = resolveRank [cat.csv3, cat.csv4] ∧
      (decodeReport cat).priceSource = (resolveLowest
        [⟨cat.csv1, "Amazon"⟩, ⟨cat.csv18, "Buy Box"⟩, ⟨cat.csv2, "New"⟩]).map
          (fun x => x.2.2) ∧
      (decodeReport cat).price =
        (currentPriceScan [cat.csv1, cat.csv18, cat.csv2]).map (fun v : Int => (v : ℚ) / 100)) := by
  refine ⟨?_, ?_, ?_, ?_, by decide, by decide, fun cat => ⟨rfl, rfl, rfl⟩⟩
  · intro c rest habs
    cases hdata : c.data with
    | none => simp [resolveLowest, hdata]
    | some sl =>
      have hm := habs sl hdata
      by_cases hl : sl.length > 0
      · simp [resolveLowest, hdata, hl, hm]
      · simp [resolveLowest, hdata, hl]
  · intro c rest sl p ts hdata hmin
    cases sl with
    | nil => simp [minLoop] at hmin
    | cons x xs =>
      simp [resolveLowest, hdata, hmin]
  · intro hd rest habs
    cases hdata : hd with
    | none => simp [resolveRank, hdata]
    | some sl =>
      have hm := habs sl hdata
      by_cases hl : sl.length > 0
      · simp [resolveRank, hdata, hl, hm]
      · simp [resolveRank, hdata, hl]
  · intro hd rest sl r hdata hrank
    cases sl with
    | nil => simp [latestValidRank, rankScan] at hrank
    | cons x xs =>
      simp [resolveRank, hdata, hrank]

theorem c5_witness :
    resolveLowest [⟨some [5, -1], "A"⟩, ⟨some [7, 30], "B"⟩] =
      resolveLowest [⟨some [7, 30], "B"⟩] ∧
    resolveLowest [⟨some [7, 30], "B"⟩] = some (30, 7, "B") ∧
    resolveRank [some [9, 4], some [1, 2]] = some 4 :=
  ⟨c5_priority_resolver.1 ⟨some [5, -1], "A"⟩ [⟨some [7, 30], "B"⟩]
      (fun sl h => by injection h with h; subst h; decide),
   c5_priority_resolver.2.1 ⟨some [7, 30], "B"⟩ [] [7, 30] 30 7 rfl (by decide),
   c5_priority_resolver.2.2.2.1 (some [9, 4]) [some [1, 2]] [9, 4] 4 rfl (by decide)⟩

/-- C7: for every integer raw timestamp the codec produces exactly
epochOffsetMillis + raw · 60000 where the code's epoch constant is the
calendar instant 2011-01-01T00:00:00.000Z (day 14975 after 1970-01-01, checked
against civil-calendar arithmetic); no range validation is performed (the
codec is a total function of the integer input, so the same raw input always
yields the same instant), and the spec's example raw value 579360 decodes to
an instant on the calendar day 2012-02-07 UTC. -/
theorem c7_timestamp_codec (raw : Int) :
    decodeTimestamp raw = civilDaysFromEpoch 2011 1 1 * 86400000 + raw * 60000 ∧
    civilDaysFromEpoch 2012 2 7 * 86400000 ≤ decodeTimestamp 579360 ∧
    decodeTimestamp 579360 < civilDaysFromEpoch 2012 2 8 * 86400000 := by
  refine ⟨?_, by decide, by decide⟩
  rw [show civilDaysFromEpoch 2011 1 1 = 14975 by decide]
  unfold decodeTimestamp keepaEpochStart
  norm_num

theorem c7_witness :
    decodeTimestamp 579360 = civilDaysFromEpoch 2011 1 1 * 86400000 + 579360 * 60000 ∧
    civilDaysFromEpoch 2012 2 7 * 86400000 ≤ decodeTimestamp 579360 ∧
    decodeTimestamp 579360 < civilDaysFromEpoch 2012 2 8 * 86400000 :=
  c7_timestamp_codec 579360

/-- C8: every price placed in the decoded report is a raw integer cents value
taken from one of the candidate series divided by exactly 100 — the current
price is the final element of one candidate series, the windowed-minimum price
is the value of a walked pair of one candidate series, both sentinel-valid —
and in particular raw 1999 decodes to 19.99 currency units. -/
theorem c8_price_division (c : SeriesCatalog) (q : ℚ) :
    ((decodeReport c).price = some q →
      ∃ v : Int, isValid (some v) = true ∧ q = (v : ℚ) / 100 ∧
        ∃ sl, some sl ∈ [c.csv1, c.csv18, c.csv2] ∧ sl[sl.length - 1]? = some v) ∧
    ((decodeReport c).lowestBuyboxPrice30Days = some q →
      ∃ v t : Int, isValid (some v) = true ∧ q = (v : ℚ) / 100 ∧
        ∃ cand, cand ∈ [(⟨c.csv1, "Amazon"⟩ : PriceCandidate), ⟨c.csv18, "Buy Box"⟩,
            ⟨c.csv2, "New"⟩] ∧
          ∃ sl, cand.data = some sl ∧ (t, v) ∈ pairs sl) ∧
    (1999 : ℚ) / 100 = 19.99 := by
  refine ⟨?_, ?_, by norm_num⟩
  · intro h
    have h' : (currentPriceScan [c.csv1, c.csv18, c.csv2]).map
        (fun v : Int => (v : ℚ) / 100) = some q := h
    rw [Option.map_eq_some'] at h'
    obtain ⟨v, hscan, hq⟩ := h'
    obtain ⟨hval, sl, hmem, hlen, hlast⟩ := currentPriceScan_sound _ v hscan
    exact ⟨v, hval, hq.symm, sl, hmem, hlast⟩
  · intro h
    have h' : (resolveLowest [⟨c.csv1, "Amazon"⟩, ⟨c.csv18, "Buy Box"⟩,
        ⟨c.csv2, "New"⟩]).map (fun x : Int × Int × String => (x.1 : ℚ) / 100) = some q := h
    rw [Option.map_eq_some'] at h'
    obtain ⟨x, hres, hq⟩ := h'
    obtain ⟨p, ts, ty⟩ := x
    obtain ⟨cand, hmem, hty, sl, hdata, hmin⟩ := resolveLowest_sound _ p ts ty hres
    rw [minLoop_eq_minFold] at hmin
    obtain ⟨hval, l1, l2, hl, -, -⟩ := minFold_none_spec _ _ _ hmin
    refine ⟨p, ts, hval, hq.symm, cand, hmem, sl, hdata, ?_⟩
    rw [hl]
    exact List.mem_append.mpr (Or.inr (List.mem_cons_self _ _))

theorem c8_witness :
    ∃ v : Int, isValid (some v) = true ∧ (19.99 : ℚ) = (v : ℚ) / 100 ∧
      ∃ sl, some sl ∈ [(none : Option (List Int)), some [100, 1999], none] ∧
        sl[sl.length - 1]? = some v :=
  (c8_price_division ⟨none, none, none, none, some [100, 1999]⟩ 19.99).1 (by
    show (currentPriceScan [(none : Option (List Int)), some [100, 1999], none]).map
      (fun v : Int => (v : ℚ) / 100) = some 19.99
    rw [show currentPriceScan [(none : Option (List Int)), some [100, 1999], none] =
      some 1999 by decide]
    norm_num)

/-- C9 counterexample: two of the claim's enumerated failure modes do not
resolve to absent.  On the odd-length rank series [100, -1, 200] the only
walked pair (100, -1) fails the sentinel filter, so the claim predicts an
absent rank, but the decode reports the present value 200 (a timestamp slot);
and a price series whose single entry lies at timestamp 500, strictly below
the window start 1000 computed from now = 2652000000, still yields a present
lowest-price result instead of absent. -/
theorem c9_counterexample :
    (decodeReport ⟨none, none, some [100, -1, 200], none, none⟩).salesRank = some 200 ∧
    pairs [100, -1, 200] = [(100, -1)] ∧
    isValid (some (-1 : Int)) = false ∧
    thirtyDaysAgo 2652000000 = 1000 ∧
    (decodeReport ⟨some [500, 10], none, none, none, none⟩).priceSource = some "Amazon" ∧
    ((500 : Int) < 1000) := by decide

/-- C9 (amended): the decode orchestrator is a total function (no failure mode
raises) producing a structurally complete report for every catalog: a catalog
of empty series and a catalog of missing series each produce a report with
every metric absent, as does a catalog of well-formed (even-length) series
whose values are all sentinels; a catalog with rank data but no price data
still yields the rank (one metric's absence never blocks another), and each
metric is computed only from its own candidate slots, so any failure affects
that metric alone.  However, odd-length series and out-of-window data do not
resolve to absent: an odd-length rank series can yield a present value read
from a timestamp slot, and a price series lying entirely before any window
start still yields a present minimum. -/
theorem c9_orchestrator_total :
    ((decodeReport ⟨some [], some [], some [], some [], some []⟩).salesRank = none ∧
     (decodeReport ⟨some [], some [], some [], some [], some []⟩).price = none ∧
     (decodeReport ⟨some [], some [], some [], some [], some []⟩).lowestBuyboxPrice30Days
       = none ∧
     (decodeReport ⟨some [], some [], some [], some [], some []⟩).lowestBuyboxPriceDate
       = none ∧
     (decodeReport ⟨some [], some [], some [], some [], some []⟩).priceSource = none) ∧
    ((decodeReport ⟨none, none, none, none, none⟩).salesRank = none ∧
     (decodeReport ⟨none, none, none, none, none⟩).price = none ∧
     (decodeReport ⟨none, none, none, none, none⟩).lowestBuyboxPrice30Days = none ∧
     (decodeReport ⟨none, none, none, none, none⟩).lowestBuyboxPriceDate = none ∧
     (decodeReport ⟨none, none, none, none, none⟩).priceSource = none) ∧
    ((decodeReport ⟨some [1, -1, 2, 0], some [1, -1], some [3, -1], some [4, -1],
        some [5, -1]⟩).salesRank = none ∧
     (decodeReport ⟨some [1, -1, 2, 0], some [1, -1], some [3, -1], some [4, -1],
        some [5, -1]⟩).price = none ∧
     (decodeReport ⟨some [1, -1, 2, 0], some [1, -1], some [3, -1], some [4, -1],
        some [5, -1]⟩).lowestBuyboxPrice30Days = none ∧
     (decodeReport ⟨some [1, -1, 2, 0], some [1, -1], some [3, -1], some [4, -1],
        some [5, -1]⟩).lowestBuyboxPriceDate = none ∧
     (decodeReport ⟨some [1, -1, 2, 0], some [1, -1], some [3, -1], some [4, -1],
        some [5, -1]⟩).priceSource = none) ∧
    ((decodeReport ⟨some [], some [], some [10, 7], none, none⟩).salesRank = some 7 ∧
     (decodeReport ⟨some [], some [], some [10, 7], none, none⟩).price = none ∧
     (decodeReport ⟨some [], some [], some [10, 7], none, none⟩).lowestBuyboxPrice30Days
       = none) ∧
    (∀ c1 c2 : SeriesCatalog, c1.csv3 = c2.csv3 → c1.csv4 = c2.csv4 →
      (decodeReport c1).salesRank = (decodeReport c2).salesRank) ∧
    (∀ c1 c2 : SeriesCatalog, c1.csv1 = c2.csv1 → c1.csv2 = c2.csv2 → c1.csv18 = c2.csv18 →
      (decodeReport c1).price = (decodeReport c2).price ∧
      (decodeReport c1).lowestBuyboxPrice30Days
        = (decodeReport c2).lowestBuyboxPrice30Days ∧
      (decodeReport c1).lowestBuyboxPriceDate = (decodeReport c2).lowestBuyboxPriceDate ∧
      (decodeReport c1).priceSource = (decodeReport c2).priceSource) ∧
    (decodeReport ⟨none, none, some [100, -1, 200], none, none⟩).salesRank = some 200 ∧
    (decodeReport ⟨some [500, 10], none, none, none, none⟩).priceSource = some "Amazon" := by
  refine ⟨by decide, by decide, by decide, by decide, ?_, ?_, by decide, by decide⟩
  · intro c1 c2 h3 h4
    obtain ⟨a1, a2, a3, a4, a5⟩ := c1
    obtain ⟨b1, b2, b3, b4, b5⟩ := c2
    simp only at h3 h4
    subst h3
    subst h4
    rfl
  · intro c1 c2 h1 h2 h18
    obtain ⟨a1, a2, a3, a4, a5⟩ := c1
    obtain ⟨b1, b2, b3, b4, b5⟩ := c2
    simp only at h1 h2 h18
    subst h1
    subst h2
    subst h18
    exact ⟨rfl, rfl, rfl, rfl⟩

theorem c9_witness :
    (decodeReport ⟨none, none, some [10, 7], none, none⟩).salesRank =
      (decodeReport ⟨some [1, 2], some [3, 4], some [10, 7], none, some [5, 6]⟩).salesRank :=
  c9_orchestrator_total.2.2.2.2.1 ⟨none, none, some [10, 7], none, none⟩
    ⟨some [1, 2], some [3, 4], some [10, 7], none, some [5, 6]⟩ rfl rfl

/-- C10: formatASIN produces only characters of the class [A-Z0-9], is
idempotent, and validateASIN accepts a formatted string exactly when it has
length 10. -/
theorem c10_formatASIN (s : List Char) :
    (∀ ch ∈ formatASIN s, isAsinChar ch = true) ∧
    formatASIN (formatASIN s) = formatASIN s ∧
    (validateASIN (formatASIN s) = true ↔ (formatASIN s).length = 10) := by
  have hmem : ∀ ch ∈ formatASIN s, isAsinChar ch = true := by
    intro ch hch
    exact (List.mem_filter.mp hch).2
  have hupper : (formatASIN s).map Char.toUpper = formatASIN s := by
    conv_rhs => rw [← List.map_id (formatASIN s)]
    exact List.map_congr_left fun ch hch => toUpper_id_of_asin ch (hmem ch hch)
  refine ⟨hmem, ?_, ?_⟩
  · show ((formatASIN s).map Char.toUpper).filter isAsinChar = formatASIN s
    rw [hupper, List.filter_eq_self.mpr hmem]
  · unfold validateASIN
    rw [hupper]
    simp only [Bool.and_eq_true, beq_iff_eq, List.all_eq_true]
    constructor
    · rintro ⟨h10, -⟩
      exact h10
    · intro h10
      exact ⟨h10, fun ch hch => hmem ch hch⟩

theorem c10_witness :
    formatASIN (formatASIN ['b', '1', '!']) = formatASIN ['b', '1', '!'] ∧
    (validateASIN (formatASIN ['b', '1', '!']) = true ↔
      (formatASIN ['b', '1', '!']).length = 10) :=
  ⟨(c10_formatASIN ['b', '1', '!']).2.1, (c10_formatASIN ['b', '1', '!']).2.2⟩

theorem sentinel_filter_witness :
    isValid (some 5) = true ↔ ∃ x : Int, (some 5 : Option Int) = some x ∧ 0 < x :=
  sentinel_filter_accepts_exactly_positive (some 5)
